import Mathlib

/-
Verification of the fixed-capacity bit-vector directed graph described by the
repository specification (the engine behind `sanitizer_bvgraph.h`, exercised by
`lib/sanitizer_common/tests/sanitizer_bvgraph_test.cc`).  The implementation
header itself is not among the sources, so the graph engine and the
hierarchical bitset are modelled from the specification text; the reference
set-of-pairs model mirrors the `SimpleGraph` class of the test file.
-/

namespace BVG

/-- Modelled from the spec: the fixed-capacity bit-vector directed graph
(`sanitizer_bvgraph.h` is absent from the sources; only its test file is
present).  `rows v` is the out-neighbour bitset of vertex `v`; a bitset of
capacity `N` is modelled as a finite set over `Fin N`. -/
structure BVGraph (N : Nat) where
  rows : Fin N → Finset (Fin N)
deriving DecidableEq

variable {N : Nat}

/-- Modelled from the spec: `clear()` / construction brings the graph to the
all-empty state. -/
def BVGraph.clear (N : Nat) : BVGraph N := ⟨fun _ => ∅⟩

/-- Modelled from the spec: `hasEdge(from, to)` is a membership test on
`rows[from]`. -/
def BVGraph.hasEdge (g : BVGraph N) (u v : Fin N) : Bool :=
  decide (v ∈ g.rows u)

/-- Modelled from the spec: `addEdge(from, to)` sets bit `to` in `rows[from]`
and returns whether the edge was newly created. -/
def BVGraph.addEdge (g : BVGraph N) (u v : Fin N) : Bool × BVGraph N :=
  (decide (v ∉ g.rows u), ⟨fun w => if w = u then insert v (g.rows u) else g.rows w⟩)

/-- Modelled from the spec: `removeEdge(from, to)` clears bit `to` in
`rows[from]` and returns whether an edge was actually present and removed. -/
def BVGraph.removeEdge (g : BVGraph N) (u v : Fin N) : Bool × BVGraph N :=
  (decide (v ∈ g.rows u), ⟨fun w => if w = u then (g.rows u).erase v else g.rows w⟩)

/-- Modelled from the spec: `empty()` is true iff every row is empty. -/
def BVGraph.isEmpty (g : BVGraph N) : Bool :=
  decide (∀ v, g.rows v = ∅)

/-- Modelled from the spec: `removeEdgesFrom(sources)` resets `rows[v]` to
empty for every vertex `v` set in `sources`. -/
def BVGraph.removeEdgesFrom (g : BVGraph N) (sources : Finset (Fin N)) : BVGraph N :=
  ⟨fun w => if w ∈ sources then ∅ else g.rows w⟩

/-- Modelled from the spec: `removeEdgesTo(targets)` subtracts `targets` from
every row, removing every edge whose destination is in `targets`. -/
def BVGraph.removeEdgesTo (g : BVGraph N) (targets : Finset (Fin N)) : BVGraph N :=
  ⟨fun w => g.rows w \ targets⟩

/-- One BFS expansion: the union of the out-neighbour rows of the vertices of
`S` (step 4 of the spec's bounded bitset BFS). -/
def stepSet (g : BVGraph N) (S : Finset (Fin N)) : Finset (Fin N) :=
  S.biUnion g.rows

/-- Modelled from the spec: the loop of the bounded bitset BFS of
`isReachable` (steps 2–5), written with explicit fuel.  The fuel is a
modelling artifact: the spec proves the loop runs at most `N` rounds, and the
fuel-independence theorems below show the cutoff is never reached when the
fuel is at least `N + 1`. -/
def reachLoop (g : BVGraph N) (target : Finset (Fin N)) :
    Nat → Finset (Fin N) → Finset (Fin N) → Bool
  | 0, _, _ => false
  | fuel + 1, frontier, visited =>
    if (frontier ∩ target).Nonempty then true
    else if frontier = ∅ then false
    else
      reachLoop g target fuel (stepSet g frontier \ visited)
        (visited ∪ (stepSet g frontier \ visited))

/-- Modelled from the spec: `isReachable(from, target)` — the frontier and the
visited set are seeded from `rows[from]` (step 1), then the loop runs. -/
def isReachable (g : BVGraph N) (a : Fin N) (target : Finset (Fin N)) : Bool :=
  reachLoop g target (N + 1) (g.rows a) (g.rows a)

/-- Predecessor choice for a newly visited vertex `v`: some frontier vertex
with an edge to `v` (the spec leaves the tie-break unspecified; the model
takes the least such vertex). -/
def choosePred (g : BVGraph N) (frontier : Finset (Fin N)) (v : Fin N) : Option (Fin N) :=
  if h : (frontier.filter (fun u => v ∈ g.rows u)).Nonempty then
    some ((frontier.filter (fun u => v ∈ g.rows u)).min' h)
  else none

/-- Modelled from the spec: the BFS loop of `findPath`, identical to
`reachLoop` but recording for each newly visited vertex a predecessor
reference (its discovering frontier vertex); on first intersection with
`target` it returns a discovered target vertex together with the predecessor
map. -/
def findPathLoop (g : BVGraph N) (target : Finset (Fin N)) :
    Nat → Finset (Fin N) → Finset (Fin N) → (Fin N → Option (Fin N)) →
      Option (Fin N × (Fin N → Option (Fin N)))
  | 0, _, _, _ => none
  | fuel + 1, frontier, visited, pred =>
    if h : (frontier ∩ target).Nonempty then
      some ((frontier ∩ target).min' h, pred)
    else if frontier = ∅ then none
    else
      findPathLoop g target fuel (stepSet g frontier \ visited)
        (visited ∪ (stepSet g frontier \ visited))
        (fun v => if v ∈ stepSet g frontier \ visited then choosePred g frontier v else pred v)

/-- Modelled from the spec: path reconstruction of `findPath` — walk the
predecessor references back from the discovered target vertex until the
source is reached (the source itself is prepended by `findPath`). -/
def walkBack (pred : Fin N → Option (Fin N)) (src : Fin N) : Nat → Fin N → List (Fin N)
  | 0, v => [v]
  | fuel + 1, v =>
    match pred v with
    | none => [v]
    | some u => if u = src then [v] else walkBack pred src fuel u ++ [v]

/-- Predecessor map after the seeding step of `findPath`: each direct
successor of the source was discovered by the source itself. -/
def initPred (g : BVGraph N) (a : Fin N) : Fin N → Option (Fin N) :=
  fun v => if v ∈ g.rows a then some a else none

/-- Modelled from the spec: `findPath(from, target, outBuffer, maxLen)` — run
the recording BFS, reconstruct the path (source first, discovered target
member last), and return it when its vertex count is at most `maxLen`;
the empty list models the return value `0` with the buffer not written. -/
def findPath (g : BVGraph N) (a : Fin N) (target : Finset (Fin N)) (maxLen : Nat) :
    List (Fin N) :=
  match findPathLoop g target (N + 1) (g.rows a) (g.rows a) (initPred g a) with
  | none => []
  | some (t, pred) =>
    let p := a :: walkBack pred a N t
    if p.length ≤ maxLen then p else []

/-- The edge relation of the graph: `v` is an out-neighbour of `u`. -/
def edgeRel (g : BVGraph N) (u v : Fin N) : Prop := v ∈ g.rows u

/-- A directed path of one or more edges from `a` to some member of `target`:
a nonempty chain of edges starting at `a` whose last vertex lies in
`target`. -/
def HasPath (g : BVGraph N) (a : Fin N) (target : Finset (Fin N)) : Prop :=
  ∃ l : List (Fin N), ∃ h : l ≠ [], List.Chain (edgeRel g) a l ∧ l.getLast h ∈ target

/-- Vertices reachable from `a` by a path of at least one and at most `k`
edges (the brute-force bounded transitive closure). -/
def ball (g : BVGraph N) (a : Fin N) : Nat → Finset (Fin N)
  | 0 => ∅
  | k + 1 => g.rows a ∪ stepSet g (ball g a k)

/-- Modelled from the spec: the hierarchical (two-level) bitset
(`sanitizer_bitvector.h` is absent from the sources): `C` chunks of inner
capacity `K`, plus one occupancy bitset tracking which chunks are
non-empty. -/
structure TwoLevelBV (C K : Nat) where
  occupancy : Finset (Fin C)
  chunks : Fin C → Finset (Fin K)
deriving DecidableEq

variable {C K : Nat}

/-- Chunk index of bit `i`: `i / innerCapacity`, as in the spec. -/
def chunkIdx (i : Fin (C * K)) : Fin C :=
  ⟨i.val / K, by
    have hK : 0 < K := by
      rcases Nat.eq_zero_or_pos K with h | h
      · exact absurd i.isLt (by simp [h])
      · exact h
    exact (Nat.div_lt_iff_lt_mul hK).mpr i.isLt⟩

/-- Within-chunk index of bit `i`: `i % innerCapacity`, as in the spec. -/
def innerIdx (i : Fin (C * K)) : Fin K :=
  ⟨i.val % K, by
    have hK : 0 < K := by
      rcases Nat.eq_zero_or_pos K with h | h
      · exact absurd i.isLt (by simp [h])
      · exact h
    exact Nat.mod_lt _ hK⟩

/-- Modelled from the spec: `clear()` of the two-level bitset empties every
chunk and the occupancy set. -/
def TwoLevelBV.clear (C K : Nat) : TwoLevelBV C K := ⟨∅, fun _ => ∅⟩

/-- Modelled from the spec: `setBit(i)` sets bit `i % K` in chunk `i / K`;
if the chunk transitions from empty to non-empty the occupancy bit of the
chunk is set.  Returns whether the bit was newly inserted. -/
def TwoLevelBV.setBit (b : TwoLevelBV C K) (i : Fin (C * K)) : Bool × TwoLevelBV C K :=
  let c := chunkIdx i
  let r := innerIdx i
  (decide (r ∉ b.chunks c),
    ⟨if b.chunks c = ∅ then insert c b.occupancy else b.occupancy,
     fun d => if d = c then insert r (b.chunks c) else b.chunks d⟩)

/-- Modelled from the spec: `clearBit(i)` clears bit `i % K` in chunk `i / K`;
if the chunk becomes empty the occupancy bit of the chunk is cleared.
Returns whether the bit was present. -/
def TwoLevelBV.clearBit (b : TwoLevelBV C K) (i : Fin (C * K)) : Bool × TwoLevelBV C K :=
  let c := chunkIdx i
  let r := innerIdx i
  (decide (r ∈ b.chunks c),
    ⟨if (b.chunks c).erase r = ∅ then b.occupancy.erase c else b.occupancy,
     fun d => if d = c then (b.chunks c).erase r else b.chunks d⟩)

/-- Modelled from the spec: `unionInPlace(other)` unions chunk-wise, visiting
only chunks whose occupancy bit is set in `other` (the remaining chunks are
unchanged); the resulting occupancy is the union of the occupancies. -/
def TwoLevelBV.unionInPlace (b o : TwoLevelBV C K) : TwoLevelBV C K :=
  ⟨b.occupancy ∪ o.occupancy,
   fun c => if c ∈ o.occupancy then b.chunks c ∪ o.chunks c else b.chunks c⟩

/-- Modelled from the spec: `subtractInPlace(other)` subtracts chunk-wise,
visiting only chunks whose occupancy bit is set in both operands, and fixes
the occupancy bit of every visited chunk from its resulting emptiness. -/
def TwoLevelBV.subtractInPlace (b o : TwoLevelBV C K) : TwoLevelBV C K :=
  ⟨b.occupancy.filter
     (fun c => ((if c ∈ b.occupancy ∩ o.occupancy then b.chunks c \ o.chunks c
                 else b.chunks c)).Nonempty),
   fun c => if c ∈ b.occupancy ∩ o.occupancy then b.chunks c \ o.chunks c else b.chunks c⟩

/-- The hierarchical-bitset invariant: occupancy bit `c` is set iff chunk `c`
is non-empty. -/
def TwoLevelBV.Inv (b : TwoLevelBV C K) : Prop :=
  ∀ c : Fin C, c ∈ b.occupancy ↔ (b.chunks c).Nonempty

instance (b : TwoLevelBV C K) : Decidable b.Inv := by
  unfold TwoLevelBV.Inv; infer_instance

/-- One mutation step of the reference set-of-pairs model and of the graph,
used to compare arbitrary `addEdge`/`removeEdge` sequences (mirrors the
`SimpleGraph` class of `sanitizer_bvgraph_test.cc`). -/
inductive EdgeOp (N : Nat) where
  | add (u v : Fin N)
  | rem (u v : Fin N)
deriving DecidableEq

/-- Run a sequence of edge mutations on the graph, collecting the boolean
result of each call. -/
def runGraph (g : BVGraph N) : List (EdgeOp N) → BVGraph N × List Bool
  | [] => (g, [])
  | op :: ops =>
    let step :=
      match op with
      | .add u v => g.addEdge u v
      | .rem u v => g.removeEdge u v
    let rest := runGraph step.2 ops
    (rest.1, step.1 :: rest.2)

/-- Reference model, following the spec's words: a set of `(from, to)` pairs,
updated by insert on `addEdge` and erase on `removeEdge`; each call reports
whether the set changed, as `std::set::insert(...).second` and
`std::set::erase(...)` do in the test's `SimpleGraph`. -/
def runModel (s : Finset (Fin N × Fin N)) : List (EdgeOp N) → Finset (Fin N × Fin N) × List Bool
  | [] => (s, [])
  | op :: ops =>
    let step :=
      match op with
      | .add u v => (decide ((u, v) ∉ s), insert (u, v) s)
      | .rem u v => (decide ((u, v) ∈ s), s.erase (u, v))
    let rest := runModel step.2 ops
    (rest.1, step.1 :: rest.2)

/-- Concrete capacity-8 graph of the spec's Scenario A/B: edges `1→2`, `2→4`,
`2→0`. -/
def gScenario : BVGraph 8 :=
  ((((BVGraph.clear 8).addEdge 1 2).2.addEdge 2 4).2.addEdge 2 0).2

/-- Concrete target bitset `{0, 7}` of the spec's Scenario A/B. -/
def tScenario : Finset (Fin 8) := {0, 7}

/-- Concrete capacity-3 chain `0→1→2`. -/
def gChain3 : BVGraph 3 :=
  (((BVGraph.clear 3).addEdge 0 1).2.addEdge 1 2).2

/-- Concrete capacity-2 graph with one present edge `0→1`. -/
def gOneEdge : BVGraph 2 :=
  ((BVGraph.clear 2).addEdge 0 1).2

/-- C5: after `removeEdgesFrom S` every vertex of `S` has an empty out-set and
every edge whose source is outside `S` is unaltered; after `removeEdgesTo T`
no edge has a destination in `T` and every edge whose destination is outside
`T` is unaltered. -/
theorem c5_bulk_removal_scope (g : BVGraph N) (S T : Finset (Fin N)) :
    (∀ v ∈ S, (g.removeEdgesFrom S).rows v = ∅) ∧
    (∀ u v : Fin N, u ∉ S → (g.removeEdgesFrom S).hasEdge u v = g.hasEdge u v) ∧
    (∀ u v : Fin N, v ∈ T → (g.removeEdgesTo T).hasEdge u v = false) ∧
    (∀ u v : Fin N, v ∉ T → (g.removeEdgesTo T).hasEdge u v = g.hasEdge u v) := by
  refine ⟨fun v hv => ?_, fun u v hu => ?_, fun u v hv => ?_, fun u v hv => ?_⟩
  · simp [BVGraph.removeEdgesFrom, hv]
  · simp [BVGraph.removeEdgesFrom, BVGraph.hasEdge, hu]
  · simp [BVGraph.removeEdgesTo, BVGraph.hasEdge, hv]
  · simp [BVGraph.removeEdgesTo, BVGraph.hasEdge, hv]

/-- C5 witness: the bulk-removal scope facts evaluated on a concrete
two-vertex graph with the source set `{0}` and the target set `{1}`. -/
theorem c5_witness :
    (gOneEdge.removeEdgesFrom {0}).rows 0 = ∅ ∧
      (gOneEdge.removeEdgesFrom {0}).hasEdge 1 0 = gOneEdge.hasEdge 1 0 ∧
      (gOneEdge.removeEdgesTo {1}).hasEdge 0 1 = false ∧
      (gOneEdge.removeEdgesTo {1}).hasEdge 0 0 = gOneEdge.hasEdge 0 0 :=
  ⟨(c5_bulk_removal_scope gOneEdge {0} {1}).1 0 (by decide),
   (c5_bulk_removal_scope gOneEdge {0} {1}).2.1 1 0 (by decide),
   (c5_bulk_removal_scope gOneEdge {0} {1}).2.2.1 0 1 (by decide),
   (c5_bulk_removal_scope gOneEdge {0} {1}).2.2.2 0 0 (by decide)⟩

/-- C6: `addEdge` returns true iff the edge was absent, `removeEdge` returns
true iff the edge was present; `addEdge` on a present edge and `removeEdge`
on an absent edge return false and change no state. -/
theorem c6_mutation_idempotence (g gp ga : BVGraph N) (u v : Fin N)
    (hp : gp.hasEdge u v = true) (ha : ga.hasEdge u v = false) :
    (g.addEdge u v).1 = !g.hasEdge u v ∧
    (g.removeEdge u v).1 = g.hasEdge u v ∧
    gp.addEdge u v = (false, gp) ∧
    ga.removeEdge u v = (false, ga) := by
  have hp2 : v ∈ gp.rows u := by simpa [BVGraph.hasEdge] using hp
  have ha2 : v ∉ ga.rows u := by simpa [BVGraph.hasEdge] using ha
  refine ⟨by simp [BVGraph.addEdge, BVGraph.hasEdge], by
    simp [BVGraph.removeEdge, BVGraph.hasEdge], ?_, ?_⟩
  · have hrows : (fun w => if w = u then insert v (gp.rows u) else gp.rows w) = gp.rows := by
      funext w
      by_cases hw : w = u
      · subst hw; simp [Finset.insert_eq_self.mpr hp2]
      · simp [hw]
    have hstep : gp.addEdge u v = (decide (v ∉ gp.rows u), ⟨gp.rows⟩) := by
      simp only [BVGraph.addEdge, hrows]
    rw [hstep]
    exact Prod.ext_iff.mpr ⟨by simp [hp2], rfl⟩
  · have hrows : (fun w => if w = u then (ga.rows u).erase v else ga.rows w) = ga.rows := by
      funext w
      by_cases hw : w = u
      · subst hw; simp [Finset.erase_eq_self.mpr ha2]
      · simp [hw]
    have hstep : ga.removeEdge u v = (decide (v ∈ ga.rows u), ⟨ga.rows⟩) := by
      simp only [BVGraph.removeEdge, hrows]
    rw [hstep]
    exact Prod.ext_iff.mpr ⟨by simp [ha2], rfl⟩

/-- C6 witness: the mutation-result facts evaluated at a concrete present
edge and a concrete absent edge of two-vertex graphs. -/
theorem c6_witness :
    (gOneEdge.hasEdge 0 1 = true ∧ (BVGraph.clear 2).hasEdge 0 1 = false) ∧
      ((gOneEdge.addEdge 0 1).1 = !gOneEdge.hasEdge 0 1 ∧
        (gOneEdge.removeEdge 0 1).1 = gOneEdge.hasEdge 0 1 ∧
        gOneEdge.addEdge 0 1 = (false, gOneEdge) ∧
        (BVGraph.clear 2).removeEdge 0 1 = (false, BVGraph.clear 2)) :=
  ⟨⟨by decide, by decide⟩,
   c6_mutation_idempotence gOneEdge gOneEdge (BVGraph.clear 2) 0 1 (by decide) (by decide)⟩

/-- C7: after every mutating operation of the hierarchical bitset (`clear`,
`setBit`, `clearBit`, `unionInPlace`, `subtractInPlace`) the occupancy bit of
every chunk is set iff the chunk is non-empty. -/
theorem c7_occupancy_invariant (b o : TwoLevelBV C K) (i : Fin (C * K))
    (hb : b.Inv) (ho : o.Inv) :
    (TwoLevelBV.clear C K).Inv ∧ (b.setBit i).2.Inv ∧ (b.clearBit i).2.Inv ∧
      (b.unionInPlace o).Inv ∧ (b.subtractInPlace o).Inv := by
  refine ⟨fun c => by simp [TwoLevelBV.clear], fun c => ?_, fun c => ?_, fun c => ?_, fun c => ?_⟩
  · by_cases hc : c = chunkIdx i
    · subst hc
      by_cases he : b.chunks (chunkIdx i) = ∅ <;>
        simp [TwoLevelBV.setBit, he, (hb (chunkIdx i)), Finset.nonempty_iff_ne_empty]
    · by_cases he : b.chunks (chunkIdx i) = ∅ <;>
        simp [TwoLevelBV.setBit, he, hc, hb c]
  · by_cases hc : c = chunkIdx i
    · subst hc
      by_cases he : (b.chunks (chunkIdx i)).erase (innerIdx i) = ∅
      · simp [TwoLevelBV.clearBit, he]
      · have hne : (b.chunks (chunkIdx i)).Nonempty :=
          Finset.Nonempty.mono (Finset.erase_subset _ _)
            (Finset.nonempty_iff_ne_empty.mpr he)
        simp [TwoLevelBV.clearBit, he, (hb (chunkIdx i)).mpr hne,
          Finset.nonempty_iff_ne_empty]
    · by_cases he : (b.chunks (chunkIdx i)).erase (innerIdx i) = ∅ <;>
        simp [TwoLevelBV.clearBit, he, hc, hb c]
  · by_cases hc : c ∈ o.occupancy
    · have hone : (o.chunks c).Nonempty := (ho c).mp hc
      simp [TwoLevelBV.unionInPlace, hc, Finset.Nonempty.mono Finset.subset_union_right hone]
    · simp [TwoLevelBV.unionInPlace, hc, hb c]
  · show c ∈ Finset.filter _ _ ↔ _
    rw [Finset.mem_filter]
    constructor
    · intro hmem
      exact hmem.2
    · intro hne
      refine ⟨?_, hne⟩
      by_cases hc : c ∈ b.occupancy ∩ o.occupancy
      · exact (Finset.mem_inter.mp hc).1
      · rw [show (b.subtractInPlace o).chunks c =
            (if c ∈ b.occupancy ∩ o.occupancy then b.chunks c \ o.chunks c
              else b.chunks c) from rfl, if_neg hc] at hne
        exact (hb c).mpr hne

/-- Concrete two-level bitsets used by the C7 witness: two chunks of inner
capacity two. -/
def bW : TwoLevelBV 2 2 := (((TwoLevelBV.clear 2 2).setBit 1).2.setBit 2).2

/-- Second concrete two-level bitset for the C7 witness. -/
def oW : TwoLevelBV 2 2 := ((TwoLevelBV.clear 2 2).setBit 2).2

/-- C7 witness: the invariant-preservation facts evaluated on concrete
two-chunk bitsets. -/
theorem c7_witness :
    (bW.Inv ∧ oW.Inv) ∧
      ((TwoLevelBV.clear 2 2).Inv ∧ (bW.setBit 3).2.Inv ∧ (bW.clearBit 3).2.Inv ∧
        (bW.unionInPlace oW).Inv ∧ (bW.subtractInPlace oW).Inv) :=
  ⟨⟨by decide, by decide⟩, c7_occupancy_invariant bW oW 3 (by decide) (by decide)⟩

/-- Coupling between a graph state and a set-of-pairs state: an edge is in a
row exactly when the pair is in the set. -/
def Agrees (g : BVGraph N) (s : Finset (Fin N × Fin N)) : Prop :=
  ∀ u v : Fin N, v ∈ g.rows u ↔ (u, v) ∈ s

lemma agrees_addEdge {g : BVGraph N} {s : Finset (Fin N × Fin N)} (h : Agrees g s)
    (u v : Fin N) :
    (g.addEdge u v).1 = decide ((u, v) ∉ s) ∧ Agrees (g.addEdge u v).2 (insert (u, v) s) := by
  refine ⟨by simp [BVGraph.addEdge, h u v], fun u2 v2 => ?_⟩
  show (v2 ∈ if u2 = u then insert v (g.rows u) else g.rows u2) ↔ _
  by_cases hu : u2 = u
  · subst hu
    rw [if_pos rfl, Finset.mem_insert, Finset.mem_insert, h u2 v2]
    constructor
    · rintro (rfl | hv)
      · exact Or.inl rfl
      · exact Or.inr hv
    · rintro (he | hv)
      · exact Or.inl (congrArg Prod.snd he)
      · exact Or.inr hv
  · rw [if_neg hu, Finset.mem_insert, h u2 v2]
    constructor
    · exact fun hv => Or.inr hv
    · rintro (he | hv)
      · exact absurd (congrArg Prod.fst he) hu
      · exact hv

lemma agrees_removeEdge {g : BVGraph N} {s : Finset (Fin N × Fin N)} (h : Agrees g s)
    (u v : Fin N) :
    (g.removeEdge u v).1 = decide ((u, v) ∈ s) ∧
      Agrees (g.removeEdge u v).2 (s.erase (u, v)) := by
  refine ⟨by simp [BVGraph.removeEdge, h u v], fun u2 v2 => ?_⟩
  show (v2 ∈ if u2 = u then (g.rows u).erase v else g.rows u2) ↔ _
  by_cases hu : u2 = u
  · subst hu
    rw [if_pos rfl, Finset.mem_erase, Finset.mem_erase, h u2 v2]
    constructor
    · rintro ⟨hne, hv⟩
      exact ⟨fun he => hne (congrArg Prod.snd he), hv⟩
    · rintro ⟨hne, hv⟩
      exact ⟨fun he => hne (by rw [he]), hv⟩
  · rw [if_neg hu, Finset.mem_erase, h u2 v2]
    constructor
    · exact fun hv => ⟨fun he => hu (congrArg Prod.fst he), hv⟩
    · exact fun hv => hv.2

lemma run_agree (ops : List (EdgeOp N)) :
    ∀ (g : BVGraph N) (s : Finset (Fin N × Fin N)), Agrees g s →
      (runGraph g ops).2 = (runModel s ops).2 ∧ Agrees (runGraph g ops).1 (runModel s ops).1 := by
  induction ops with
  | nil => exact fun g s h => ⟨rfl, h⟩
  | cons op ops ih =>
    intro g s h
    cases op with
    | add u v =>
      have hstep := agrees_addEdge h u v
      have hrest := ih (g.addEdge u v).2 (insert (u, v) s) hstep.2
      exact ⟨by simp only [runGraph, runModel]; exact congrArg₂ _ hstep.1 hrest.1, hrest.2⟩
    | rem u v =>
      have hstep := agrees_removeEdge h u v
      have hrest := ih (g.removeEdge u v).2 (s.erase (u, v)) hstep.2
      exact ⟨by simp only [runGraph, runModel]; exact congrArg₂ _ hstep.1 hrest.1, hrest.2⟩

/-- C4: for any sequence of `addEdge` / `removeEdge` operations starting from
a cleared graph, the boolean result of every call matches the reference
set-of-pairs model's insert/erase result, and the final edge set reported by
`hasEdge` matches the reference set exactly. -/
theorem c4_model_equivalence (ops : List (EdgeOp N)) :
    (runGraph (BVGraph.clear N) ops).2 = (runModel ∅ ops).2 ∧
      ∀ u v : Fin N, (runGraph (BVGraph.clear N) ops).1.hasEdge u v =
        decide ((u, v) ∈ (runModel (∅ : Finset (Fin N × Fin N)) ops).1) := by
  have h := run_agree ops (BVGraph.clear N) ∅ (fun u v => by simp [BVGraph.clear])
  exact ⟨h.1, fun u v => by simp [BVGraph.hasEdge, h.2 u v]⟩

lemma stepSet_mono (g : BVGraph N) {S T : Finset (Fin N)} (h : S ⊆ T) :
    stepSet g S ⊆ stepSet g T :=
  Finset.biUnion_subset_biUnion_of_subset_left _ h

lemma mem_stepSet {g : BVGraph N} {S : Finset (Fin N)} {v : Fin N} :
    v ∈ stepSet g S ↔ ∃ u ∈ S, v ∈ g.rows u := by
  simp [stepSet]

lemma ball_succ (g : BVGraph N) (a : Fin N) (k : Nat) :
    ball g a (k + 1) = g.rows a ∪ stepSet g (ball g a k) := rfl

lemma ball_subset_succ (g : BVGraph N) (a : Fin N) (k : Nat) :
    ball g a k ⊆ ball g a (k + 1) := by
  induction k with
  | zero => simp [ball]
  | succ k ih =>
    rw [ball_succ, ball_succ]
    exact Finset.union_subset_union (Finset.Subset.refl _) (stepSet_mono g ih)

lemma ball_mono (g : BVGraph N) (a : Fin N) {k m : Nat} (h : k ≤ m) :
    ball g a k ⊆ ball g a m := by
  induction h with
  | refl => exact Finset.Subset.refl _
  | step _ ih => exact ih.trans (ball_subset_succ g a _)

lemma ball_stab_of_eq (g : BVGraph N) (a : Fin N) {k : Nat}
    (h : ball g a (k + 1) = ball g a k) : ∀ j, ball g a (k + j) = ball g a k := by
  intro j
  induction j with
  | zero => rfl
  | succ j ih => rw [show k + (j + 1) = (k + j) + 1 from rfl, ball_succ, ih, ← ball_succ, h]

lemma ball_card_le (g : BVGraph N) (a : Fin N) (k : Nat) : (ball g a k).card ≤ N := by
  simpa using Finset.card_le_univ (ball g a k)

lemma ball_growth (g : BVGraph N) (a : Fin N) :
    ∀ k, (∀ j, j < k → ball g a (j + 1) ≠ ball g a j) → k ≤ (ball g a k).card := by
  intro k
  induction k with
  | zero => exact fun _ => Nat.zero_le _
  | succ k ih =>
    intro h
    have h1 : k ≤ (ball g a k).card := ih (fun j hj => h j (Nat.lt_succ_of_lt hj))
    have h2 : ball g a k ⊂ ball g a (k + 1) :=
      Finset.ssubset_iff_subset_ne.mpr
        ⟨ball_subset_succ g a k, fun he => h k (Nat.lt_succ_self k) he.symm⟩
    have h3 := Finset.card_lt_card h2
    omega

lemma ball_stab_N (g : BVGraph N) (a : Fin N) : ∀ m, N ≤ m → ball g a m = ball g a N := by
  have hex : ∃ k, k ≤ N ∧ ball g a (k + 1) = ball g a k := by
    by_contra hno
    push_neg at hno
    have hN : N + 1 ≤ (ball g a (N + 1)).card :=
      ball_growth g a (N + 1) (fun j hj => hno j (Nat.lt_succ_iff.mp hj))
    have hle := ball_card_le g a (N + 1)
    omega
  obtain ⟨k, hk, heq⟩ := hex
  intro m hm
  have h1 : ball g a m = ball g a k := by
    have hs := ball_stab_of_eq g a heq (m - k)
    rwa [show k + (m - k) = m by omega] at hs
  have h2 : ball g a N = ball g a k := by
    have hs := ball_stab_of_eq g a heq (N - k)
    rwa [show k + (N - k) = N by omega] at hs
  rw [h1, h2]

lemma ball_subset_ballN (g : BVGraph N) (a : Fin N) (k : Nat) :
    ball g a k ⊆ ball g a N := by
  rcases Nat.le_total k N with h | h
  · exact ball_mono g a h
  · rw [ball_stab_N g a k h]

lemma chain_snoc {α : Type} {R : α → α → Prop} {b : α} :
    ∀ (l : List α) (a : α), List.Chain R a (l ++ [b]) ↔
      List.Chain R a l ∧ R ((a :: l).getLast (List.cons_ne_nil a l)) b := by
  intro l
  induction l with
  | nil => simp
  | cons x xs ih =>
    intro a
    rw [List.cons_append, List.chain_cons, List.chain_cons, ih x]
    rw [List.getLast_cons (List.cons_ne_nil x xs)]
    tauto

lemma mem_ball_iff_chain (g : BVGraph N) (a : Fin N) :
    ∀ (k : Nat) (v : Fin N), v ∈ ball g a k ↔
      ∃ l : List (Fin N), ∃ h : l ≠ [],
        List.Chain (edgeRel g) a l ∧ l.length ≤ k ∧ l.getLast h = v := by
  intro k
  induction k with
  | zero =>
    intro v
    simp only [ball, Finset.not_mem_empty, false_iff]
    rintro ⟨l, hne, _, hlen, _⟩
    exact hne (List.length_eq_zero.mp (Nat.le_zero.mp hlen))
  | succ k ih =>
    intro v
    rw [ball_succ, Finset.mem_union, mem_stepSet]
    constructor
    · rintro (hv | ⟨u, hu, hv⟩)
      · exact ⟨[v], by simp, by simp [List.chain_cons, edgeRel, hv], by simp, rfl⟩
      · obtain ⟨l, hne, hch, hlen, hlast⟩ := (ih u).mp hu
        refine ⟨l ++ [v], by simp, ?_, by simp; omega, List.getLast_append_singleton l⟩
        rw [chain_snoc]
        refine ⟨hch, ?_⟩
        rw [List.getLast_cons hne, hlast]
        exact hv
    · rintro ⟨l, hne, hch, hlen, hlast⟩
      rcases List.eq_nil_or_concat l with rfl | ⟨l2, w, rfl⟩
      · exact absurd rfl hne
      · have hv : w = v := by rw [← hlast]; exact (List.getLast_concat' l2).symm
        subst hv
        rw [List.concat_eq_append] at hch hlen
        rw [chain_snoc] at hch
        rcases List.eq_nil_or_concat l2 with rfl | ⟨l3, w2, rfl⟩
        · left
          simpa [edgeRel] using hch.2
        · right
          rw [List.concat_eq_append] at hch hlen
          have hlast2 : (a :: (l3 ++ [w2])).getLast (List.cons_ne_nil _ _) = w2 := by
            rw [List.getLast_cons (by simp), List.getLast_append_singleton l3]
          refine ⟨w2, ?_, ?_⟩
          · refine (ih w2).mpr ⟨l3 ++ [w2], by simp, hch.1, ?_,
              List.getLast_append_singleton l3⟩
            simp only [List.length_append, List.length_cons, List.length_nil] at hlen ⊢
            omega
          · have := hch.2
            rw [hlast2] at this
            exact this

lemma hasPath_iff_ballN (g : BVGraph N) (a : Fin N) (target : Finset (Fin N)) :
    HasPath g a target ↔ (ball g a N ∩ target).Nonempty := by
  constructor
  · rintro ⟨l, hne, hch, hmem⟩
    refine ⟨l.getLast hne, Finset.mem_inter.mpr ⟨?_, hmem⟩⟩
    have hb := (mem_ball_iff_chain g a l.length (l.getLast hne)).mpr
      ⟨l, hne, hch, le_refl _, rfl⟩
    exact ball_subset_ballN g a l.length hb
  · rintro ⟨v, hv⟩
    obtain ⟨hb, ht⟩ := Finset.mem_inter.mp hv
    obtain ⟨l, hne, hch, _, hlast⟩ := (mem_ball_iff_chain g a N v).mp hb
    exact ⟨l, hne, hch, hlast ▸ ht⟩

lemma ball_one (g : BVGraph N) (a : Fin N) : ball g a 1 = g.rows a := by
  simp [ball, stepSet]

lemma ballN_eq_of_stab (g : BVGraph N) (a : Fin N) {k : Nat}
    (h : ball g a (k + 1) = ball g a k) : ball g a N = ball g a k := by
  rcases Nat.le_total N k with hle | hle
  · exact (ball_stab_N g a k hle).symm
  · have hs := ball_stab_of_eq g a h (N - k)
    rwa [show k + (N - k) = N by omega] at hs

lemma ball_eq_of_sdiff_empty (g : BVGraph N) (a : Fin N) {k : Nat}
    (h : ball g a (k + 1) \ ball g a k = ∅) : ball g a (k + 1) = ball g a k := by
  refine Finset.Subset.antisymm ?_ (ball_subset_succ g a k)
  intro x hx
  by_contra hxk
  exact (Finset.eq_empty_iff_forall_not_mem.mp h x) (Finset.mem_sdiff.mpr ⟨hx, hxk⟩)

lemma step_layer (g : BVGraph N) (a : Fin N) (k : Nat) :
    stepSet g (ball g a (k + 1) \ ball g a k) \ ball g a (k + 1) =
      ball g a (k + 2) \ ball g a (k + 1) := by
  apply Finset.Subset.antisymm
  · intro v hv
    obtain ⟨hv1, hv2⟩ := Finset.mem_sdiff.mp hv
    refine Finset.mem_sdiff.mpr ⟨?_, hv2⟩
    obtain ⟨u, hu, hvu⟩ := mem_stepSet.mp hv1
    have hu1 : u ∈ ball g a (k + 1) := (Finset.mem_sdiff.mp hu).1
    rw [ball_succ]
    exact Finset.mem_union_right _ (mem_stepSet.mpr ⟨u, hu1, hvu⟩)
  · intro v hv
    obtain ⟨hv1, hv2⟩ := Finset.mem_sdiff.mp hv
    refine Finset.mem_sdiff.mpr ⟨?_, hv2⟩
    rw [ball_succ] at hv1
    rcases Finset.mem_union.mp hv1 with hv1 | hv1
    · exact absurd (show v ∈ ball g a (k + 1) by
        rw [ball_succ]; exact Finset.mem_union_left _ hv1) hv2
    · obtain ⟨u, hu, hvu⟩ := mem_stepSet.mp hv1
      by_cases huk : u ∈ ball g a k
      · exact absurd (show v ∈ ball g a (k + 1) by
          rw [ball_succ]; exact Finset.mem_union_right _ (mem_stepSet.mpr ⟨u, huk, hvu⟩)) hv2
      · exact mem_stepSet.mpr ⟨u, Finset.mem_sdiff.mpr ⟨hu, huk⟩, hvu⟩

lemma layer_union (g : BVGraph N) (a : Fin N) (k : Nat) :
    ball g a (k + 1) ∪ (ball g a (k + 2) \ ball g a (k + 1)) = ball g a (k + 2) :=
  Finset.union_sdiff_of_subset (ball_subset_succ g a (k + 1))

lemma ball_succ_inter_empty (g : BVGraph N) (a : Fin N) {target : Finset (Fin N)} {k : Nat}
    (htgt : ball g a k ∩ target = ∅)
    (hint : ¬ ((ball g a (k + 1) \ ball g a k) ∩ target).Nonempty) :
    ball g a (k + 1) ∩ target = ∅ := by
  have hsplit : ball g a (k + 1) = ball g a k ∪ (ball g a (k + 1) \ ball g a k) :=
    (Finset.union_sdiff_of_subset (ball_subset_succ g a k)).symm
  rw [hsplit, Finset.union_inter_distrib_right, htgt, Finset.empty_union]
  exact Finset.not_nonempty_iff_eq_empty.mp hint

lemma reachLoop_empty_frontier (g : BVGraph N) (target : Finset (Fin N)) :
    ∀ (fuel : Nat) (vis : Finset (Fin N)), reachLoop g target fuel ∅ vis = false := by
  intro fuel vis
  cases fuel with
  | zero => rfl
  | succ fuel => simp [reachLoop]

lemma reachLoop_correct (g : BVGraph N) (a : Fin N) (target : Finset (Fin N)) :
    ∀ (fuel k : Nat), N + 1 ≤ fuel + (ball g a (k + 1)).card →
      ball g a k ∩ target = ∅ →
      (reachLoop g target fuel (ball g a (k + 1) \ ball g a k) (ball g a (k + 1)) = true ↔
        (ball g a N ∩ target).Nonempty) := by
  intro fuel
  induction fuel with
  | zero =>
    intro k hfuel _
    have hle := ball_card_le g a (k + 1)
    omega
  | succ fuel ih =>
    intro k hfuel htgt
    simp only [reachLoop]
    by_cases hint : ((ball g a (k + 1) \ ball g a k) ∩ target).Nonempty
    · rw [if_pos hint]
      obtain ⟨v, hv⟩ := hint
      obtain ⟨hv1, hv2⟩ := Finset.mem_inter.mp hv
      have hvN : v ∈ ball g a N :=
        ball_subset_ballN g a (k + 1) (Finset.mem_sdiff.mp hv1).1
      exact iff_of_true rfl ⟨v, Finset.mem_inter.mpr ⟨hvN, hv2⟩⟩
    · rw [if_neg hint]
      have htgt2 := ball_succ_inter_empty g a htgt hint
      by_cases hemp : ball g a (k + 1) \ ball g a k = ∅
      · rw [if_pos hemp]
        have hN := ballN_eq_of_stab g a (ball_eq_of_sdiff_empty g a hemp)
        rw [hN]
        constructor
        · intro h
          exact absurd h (by simp)
        · intro h
          obtain ⟨v, hv⟩ := h
          rw [show ball g a k ∩ target = ∅ from htgt] at hv
          exact absurd hv (Finset.not_mem_empty v)
      · rw [if_neg hemp, step_layer, layer_union]
        by_cases hnext : ball g a (k + 2) \ ball g a (k + 1) = ∅
        · have hN := ballN_eq_of_stab g a (ball_eq_of_sdiff_empty g a hnext)
          rw [hnext, reachLoop_empty_frontier, hN]
          constructor
          · intro h
            exact absurd h (by simp)
          · intro h
            obtain ⟨v, hv⟩ := h
            rw [show ball g a (k + 1) ∩ target = ∅ from htgt2] at hv
            exact absurd hv (Finset.not_mem_empty v)
        · have hss : ball g a (k + 1) ⊂ ball g a (k + 2) :=
            Finset.ssubset_iff_subset_ne.mpr ⟨ball_subset_succ g a (k + 1), by
              intro he
              exact hnext (by rw [← he]; exact Finset.sdiff_self _)⟩
          have hcard := Finset.card_lt_card hss
          have hcard2 : (ball g a (k + 1 + 1)).card = (ball g a (k + 2)).card := rfl
          exact ih (k + 1) (by omega) htgt2

lemma isReachable_iff (g : BVGraph N) (a : Fin N) (target : Finset (Fin N)) :
    isReachable g a target = true ↔ HasPath g a target := by
  rw [hasPath_iff_ballN]
  have h := reachLoop_correct g a target (N + 1) 0 (by omega) (by simp [ball])
  simpa [isReachable, ball, stepSet] using h

/-- C1: `isReachable(from, target)` is true iff there exists a directed path
of one or more edges from `from` to some vertex in `target` (brute-force
transitive-closure reachability with path length at least one), for every
graph state, source vertex and target bitset — in particular on long
single-chain graphs that need many BFS rounds. -/
theorem c1_isReachable_correct (g : BVGraph N) (a : Fin N) (target : Finset (Fin N)) :
    isReachable g a target = true ↔ HasPath g a target :=
  isReachable_iff g a target

/-- C8: `isReachable` never reports a zero-length path: even when `from` is a
member of `target`, if no directed path of one or more edges leads from
`from` to a member of `target` then `isReachable` returns false. -/
theorem c8_no_zero_length_path (g : BVGraph N) (a : Fin N) (target : Finset (Fin N))
    (ha : a ∈ target) (hnp : ¬ HasPath g a target) :
    isReachable g a target = false := by
  cases h : isReachable g a target with
  | false => rfl
  | true => exact absurd ((isReachable_iff g a target).mp h) hnp

/-- C8 witness: on the empty one-vertex graph with `target = {0}` and source
`0 ∈ target`, no one-or-more-edge path exists and `isReachable` is false. -/
theorem c8_witness :
    ((0 : Fin 1) ∈ ({0} : Finset (Fin 1)) ∧
      ¬ HasPath (BVGraph.clear 1) 0 {0}) ∧
      isReachable (BVGraph.clear 1) 0 {0} = false := by
  have hnp : ¬ HasPath (BVGraph.clear 1) 0 {0} := by
    rintro ⟨l, hne, hch, _⟩
    cases l with
    | nil => exact hne rfl
    | cons x xs =>
      rw [List.chain_cons] at hch
      exact absurd hch.1 (by simp [edgeRel, BVGraph.clear])
  exact ⟨⟨by decide, hnp⟩, c8_no_zero_length_path (BVGraph.clear 1) 0 {0} (by decide) hnp⟩

lemma ball_zero_succ (g : BVGraph N) (a : Fin N) :
    ball g a (0 + 1) \ ball g a 0 = g.rows a ∧ ball g a (0 + 1) = g.rows a := by
  constructor <;> simp [ball, stepSet]

lemma reachLoop_fuel_ge (g : BVGraph N) (a : Fin N) (target : Finset (Fin N))
    {fuel : Nat} (h : N + 1 ≤ fuel) :
    reachLoop g target fuel (g.rows a) (g.rows a) = isReachable g a target := by
  have h1 := reachLoop_correct g a target fuel 0 (by omega) (by simp [ball])
  have h2 := reachLoop_correct g a target (N + 1) 0 (by omega) (by simp [ball])
  rw [(ball_zero_succ g a).1, (ball_zero_succ g a).2] at h1 h2
  have hiff : (reachLoop g target fuel (g.rows a) (g.rows a) = true) ↔
      (isReachable g a target = true) := by
    rw [isReachable]
    exact h1.trans h2.symm
  cases hx : reachLoop g target fuel (g.rows a) (g.rows a) with
  | true => exact (hiff.mp hx).symm
  | false =>
    cases hy : isReachable g a target with
    | false => rfl
    | true => exact absurd (hiff.mpr hy) (by rw [hx]; exact Bool.false_ne_true)

lemma findPathLoop_succ (g : BVGraph N) (target : Finset (Fin N)) (fuel : Nat)
    (frontier visited : Finset (Fin N)) (pred : Fin N → Option (Fin N)) :
    findPathLoop g target (fuel + 1) frontier visited pred =
      if h : (frontier ∩ target).Nonempty then
        some ((frontier ∩ target).min' h, pred)
      else if frontier = ∅ then none
      else
        findPathLoop g target fuel (stepSet g frontier \ visited)
          (visited ∪ (stepSet g frontier \ visited))
          (fun v => if v ∈ stepSet g frontier \ visited then choosePred g frontier v
            else pred v) := rfl

lemma findPathLoop_empty_frontier (g : BVGraph N) (target : Finset (Fin N)) :
    ∀ (fuel : Nat) (vis : Finset (Fin N)) (pred : Fin N → Option (Fin N)),
      findPathLoop g target fuel ∅ vis pred = none := by
  intro fuel vis pred
  cases fuel with
  | zero => rfl
  | succ fuel => simp [findPathLoop_succ]

lemma findPathLoop_succ_stable (g : BVGraph N) (a : Fin N) (target : Finset (Fin N)) :
    ∀ (fuel k : Nat) (pred : Fin N → Option (Fin N)),
      N + 1 ≤ fuel + (ball g a (k + 1)).card →
      findPathLoop g target (fuel + 1) (ball g a (k + 1) \ ball g a k) (ball g a (k + 1)) pred =
        findPathLoop g target fuel (ball g a (k + 1) \ ball g a k) (ball g a (k + 1)) pred := by
  intro fuel
  induction fuel with
  | zero =>
    intro k pred hfuel
    have hle := ball_card_le g a (k + 1)
    omega
  | succ fuel ih =>
    intro k pred hfuel
    conv_lhs => rw [findPathLoop_succ]
    conv_rhs => rw [findPathLoop_succ]
    by_cases hint : ((ball g a (k + 1) \ ball g a k) ∩ target).Nonempty
    · rw [dif_pos hint, dif_pos hint]
    · rw [dif_neg hint, dif_neg hint]
      by_cases hemp : ball g a (k + 1) \ ball g a k = ∅
      · rw [if_pos hemp, if_pos hemp]
      · rw [if_neg hemp, if_neg hemp, step_layer, layer_union]
        by_cases hnext : ball g a (k + 2) \ ball g a (k + 1) = ∅
        · rw [hnext, findPathLoop_empty_frontier, findPathLoop_empty_frontier]
        · have hss : ball g a (k + 1) ⊂ ball g a (k + 2) :=
            Finset.ssubset_iff_subset_ne.mpr ⟨ball_subset_succ g a (k + 1), by
              intro he
              exact hnext (by rw [← he]; exact Finset.sdiff_self _)⟩
          have hcard := Finset.card_lt_card hss
          have hcard2 : (ball g a (k + 1 + 1)).card = (ball g a (k + 2)).card := rfl
          exact ih (k + 1) _ (by omega)

lemma findPath_fuel_ge (g : BVGraph N) (a : Fin N) (target : Finset (Fin N))
    (fuel : Nat) (h : N + 1 ≤ fuel) :
    findPathLoop g target fuel (g.rows a) (g.rows a) (initPred g a) =
      findPathLoop g target (N + 1) (g.rows a) (g.rows a) (initPred g a) := by
  induction h with
  | refl => rfl
  | @step m h2 ih =>
    have hs := findPathLoop_succ_stable g a target m 0 (initPred g a)
      (Nat.le_trans h2 (Nat.le_add_right m _))
    rw [(ball_zero_succ g a).1, (ball_zero_succ g a).2] at hs
    exact hs.trans ih

/-- C9: every `isReachable` and `findPath` query terminates within the
capacity bound: the BFS visited set is monotone and bounded by `N`, so at
most `N` expansion rounds are needed — formally, running either loop with
any fuel of at least `N + 1` rounds yields the same answer as the bounded
run, i.e. the round cutoff is never what decides the result. -/
theorem c9_bounded_termination (g : BVGraph N) (a : Fin N) (target : Finset (Fin N))
    (fuel : Nat) (h : N + 1 ≤ fuel) :
    reachLoop g target fuel (g.rows a) (g.rows a) = isReachable g a target ∧
      findPathLoop g target fuel (g.rows a) (g.rows a) (initPred g a) =
        findPathLoop g target (N + 1) (g.rows a) (g.rows a) (initPred g a) :=
  ⟨reachLoop_fuel_ge g a target h, findPath_fuel_ge g a target fuel h⟩

/-- C9 witness: on a concrete two-vertex graph, the BFS loops give identical
results at fuel `7` and at the bounded fuel `3`. -/
theorem c9_witness :
    (2 + 1 ≤ 7) ∧
      (reachLoop gOneEdge ({1} : Finset (Fin 2)) 7 (gOneEdge.rows 0) (gOneEdge.rows 0) =
        isReachable gOneEdge 0 {1} ∧
      findPathLoop gOneEdge ({1} : Finset (Fin 2)) 7 (gOneEdge.rows 0) (gOneEdge.rows 0)
          (initPred gOneEdge 0) =
        findPathLoop gOneEdge ({1} : Finset (Fin 2)) (2 + 1) (gOneEdge.rows 0)
          (gOneEdge.rows 0) (initPred gOneEdge 0)) :=
  ⟨by decide, c9_bounded_termination gOneEdge 0 {1} 7 (by decide)⟩

/-- Invariant of the predecessor map after the BFS has visited all vertices of
distance at most `D` from `a`: every visited vertex `v` of exact distance `d`
has a recorded predecessor that discovered it — a vertex with an edge to `v`
lying in the previous BFS layer (the source `a` itself for the first
layer). -/
def PredOK (g : BVGraph N) (a : Fin N) (pred : Fin N → Option (Fin N)) (D : Nat) : Prop :=
  ∀ d, 1 ≤ d → d ≤ D → ∀ v, v ∈ ball g a d → v ∉ ball g a (d - 1) →
    ∃ u, pred v = some u ∧ v ∈ g.rows u ∧
      (d = 1 → u = a) ∧ (2 ≤ d → u ∈ ball g a (d - 1) ∧ u ∉ ball g a (d - 2))

lemma predOK_init (g : BVGraph N) (a : Fin N) : PredOK g a (initPred g a) 1 := by
  intro d hd1 hdD v hv _
  have hd : d = 1 := le_antisymm hdD hd1
  subst hd
  rw [ball_one] at hv
  exact ⟨a, by simp [initPred, hv], hv, fun _ => rfl, fun h => absurd h (by omega)⟩

lemma predOK_step (g : BVGraph N) (a : Fin N) {pred : Fin N → Option (Fin N)} {k : Nat}
    (hp : PredOK g a pred (k + 1)) :
    PredOK g a
      (fun v => if v ∈ ball g a (k + 2) \ ball g a (k + 1)
        then choosePred g (ball g a (k + 1) \ ball g a k) v else pred v)
      (k + 2) := by
  intro d hd1 hdD v hv hvn
  by_cases hdk : d ≤ k + 1
  · have hvk : v ∈ ball g a (k + 1) := ball_mono g a hdk hv
    have hnotin : v ∉ ball g a (k + 2) \ ball g a (k + 1) := by
      intro hmem
      exact (Finset.mem_sdiff.mp hmem).2 hvk
    obtain ⟨u, hu1, hu2, hu3, hu4⟩ := hp d hd1 hdk v hv hvn
    refine ⟨u, ?_, hu2, hu3, hu4⟩
    show (if v ∈ ball g a (k + 2) \ ball g a (k + 1)
      then choosePred g (ball g a (k + 1) \ ball g a k) v else pred v) = some u
    rw [if_neg hnotin]
    exact hu1
  · have hd : d = k + 2 := by omega
    subst hd
    have hvnext : v ∈ ball g a (k + 2) \ ball g a (k + 1) :=
      Finset.mem_sdiff.mpr ⟨hv, hvn⟩
    have hvstep : v ∈ stepSet g (ball g a (k + 1) \ ball g a k) \ ball g a (k + 1) := by
      rw [step_layer]
      exact hvnext
    obtain ⟨u0, hu0, hvu0⟩ := mem_stepSet.mp (Finset.mem_sdiff.mp hvstep).1
    have hfilter : ((ball g a (k + 1) \ ball g a k).filter (fun u => v ∈ g.rows u)).Nonempty :=
      ⟨u0, Finset.mem_filter.mpr ⟨hu0, hvu0⟩⟩
    have hmin := Finset.min'_mem _ hfilter
    obtain ⟨humem, hurow⟩ := Finset.mem_filter.mp hmin
    obtain ⟨hub, hunb⟩ := Finset.mem_sdiff.mp humem
    refine ⟨_, ?_, hurow, fun h1 => absurd h1 (by omega), fun _ => ⟨hub, hunb⟩⟩
    show (if v ∈ ball g a (k + 2) \ ball g a (k + 1)
      then choosePred g (ball g a (k + 1) \ ball g a k) v else pred v) = _
    rw [if_pos hvnext, choosePred, dif_pos hfilter]

lemma findPathLoop_correct (g : BVGraph N) (a : Fin N) (target : Finset (Fin N)) :
    ∀ (fuel k : Nat) (pred : Fin N → Option (Fin N)),
      N + 1 ≤ fuel + (ball g a (k + 1)).card →
      ball g a k ∩ target = ∅ →
      PredOK g a pred (k + 1) →
      (findPathLoop g target fuel (ball g a (k + 1) \ ball g a k) (ball g a (k + 1)) pred = none
          → ball g a N ∩ target = ∅) ∧
      (∀ t pr,
        findPathLoop g target fuel (ball g a (k + 1) \ ball g a k) (ball g a (k + 1)) pred
            = some (t, pr) →
        ∃ d, 1 ≤ d ∧ d ≤ N ∧ t ∈ ball g a d ∧ t ∉ ball g a (d - 1) ∧ t ∈ target ∧
          ball g a (d - 1) ∩ target = ∅ ∧ PredOK g a pr d) := by
  intro fuel
  induction fuel with
  | zero =>
    intro k pred hfuel _ _
    exfalso
    have hle := ball_card_le g a (k + 1)
    omega
  | succ fuel ih =>
    intro k pred hfuel htgt hp
    rw [findPathLoop_succ]
    by_cases hint : ((ball g a (k + 1) \ ball g a k) ∩ target).Nonempty
    · rw [dif_pos hint]
      constructor
      · intro h
        exact absurd h (by simp)
      · intro t pr h
        have h2 := Option.some.inj h
        rw [Prod.mk.injEq] at h2
        obtain ⟨h3, h4⟩ := h2
        have hmin := Finset.min'_mem _ hint
        rw [h3] at hmin
        subst h4
        obtain ⟨hm1, hm2⟩ := Finset.mem_inter.mp hmin
        obtain ⟨hmb, hmnb⟩ := Finset.mem_sdiff.mp hm1
        have hkN : k + 1 ≤ N := by
          by_contra hgt
          push_neg at hgt
          have hs1 := ball_stab_N g a (k + 1) (by omega)
          have hs2 := ball_stab_N g a k (by omega)
          rw [hs1] at hmb
          rw [hs2] at hmnb
          exact hmnb hmb
        exact ⟨k + 1, by omega, hkN, hmb, hmnb, hm2, htgt, hp⟩
    · rw [dif_neg hint]
      have htgt2 := ball_succ_inter_empty g a htgt hint
      by_cases hemp : ball g a (k + 1) \ ball g a k = ∅
      · rw [if_pos hemp]
        have hN := ballN_eq_of_stab g a (ball_eq_of_sdiff_empty g a hemp)
        constructor
        · intro _
          rw [hN]
          exact htgt
        · intro t pr h
          exact absurd h (by simp)
      · rw [if_neg hemp, step_layer, layer_union]
        by_cases hnext : ball g a (k + 2) \ ball g a (k + 1) = ∅
        · rw [hnext, findPathLoop_empty_frontier]
          have hN := ballN_eq_of_stab g a (ball_eq_of_sdiff_empty g a hnext)
          constructor
          · intro _
            rw [hN]
            exact htgt2
          · intro t pr h
            exact absurd h (by simp)
        · have hss : ball g a (k + 1) ⊂ ball g a (k + 2) :=
            Finset.ssubset_iff_subset_ne.mpr ⟨ball_subset_succ g a (k + 1), by
              intro he
              exact hnext (by rw [← he]; exact Finset.sdiff_self _)⟩
          have hcard := Finset.card_lt_card hss
          have hcard2 : (ball g a (k + 1 + 1)).card = (ball g a (k + 2)).card := rfl
          exact ih (k + 1) _ (by omega) htgt2 (predOK_step g a hp)

lemma walkBack_spec (g : BVGraph N) (a : Fin N) (pred : Fin N → Option (Fin N)) (D : Nat)
    (hp : PredOK g a pred D) :
    ∀ (fuel d : Nat), 1 ≤ d → d ≤ D → d ≤ fuel →
      ∀ t, t ∈ ball g a d → t ∉ ball g a (d - 1) →
      ∃ hne : walkBack pred a fuel t ≠ [],
        List.Chain (edgeRel g) a (walkBack pred a fuel t) ∧
        (walkBack pred a fuel t).length = d ∧
        (walkBack pred a fuel t).getLast hne = t := by
  intro fuel
  induction fuel with
  | zero =>
    intro d hd1 _ hdf
    exfalso
    omega
  | succ fuel ih =>
    intro d hd1 hdD hdf t ht htn
    obtain ⟨u, hpred, hrow, hd1u, hd2u⟩ := hp d hd1 hdD t ht htn
    by_cases hd : d = 1
    · subst hd
      have hua : u = a := hd1u rfl
      rw [hua] at hpred hrow
      have hwb : walkBack pred a (fuel + 1) t = [t] := by
        simp [walkBack, hpred]
      rw [hwb]
      exact ⟨by simp, List.chain_singleton.mpr hrow, rfl, rfl⟩
    · have hd2 : 2 ≤ d := by omega
      obtain ⟨hu1, hu2⟩ := hd2u hd2
      have hune : u ≠ a := by
        intro he
        rw [he] at hrow
        have h1 : t ∈ ball g a 1 := by rw [ball_one]; exact hrow
        exact htn (ball_mono g a (by omega) h1)
      have hwb : walkBack pred a (fuel + 1) t = walkBack pred a fuel u ++ [t] := by
        simp [walkBack, hpred, hune]
      obtain ⟨hne2, hch2, hlen2, hlast2⟩ := ih (d - 1) (by omega) (by omega) (by omega) u hu1 hu2
      rw [hwb]
      refine ⟨by simp, ?_, ?_, List.getLast_append_singleton _⟩
      · rw [chain_snoc]
        refine ⟨hch2, ?_⟩
        rw [List.getLast_cons hne2, hlast2]
        exact hrow
      · rw [List.length_append, hlen2]
        simp
        omega

lemma findPath_spec (g : BVGraph N) (a : Fin N) (target : Finset (Fin N)) (maxLen : Nat) :
    (findPath g a target maxLen = [] ∧ ball g a N ∩ target = ∅) ∨
    (∃ d, 1 ≤ d ∧ d ≤ N ∧ ball g a (d - 1) ∩ target = ∅ ∧
      (ball g a d ∩ target).Nonempty ∧
      ((d + 1 ≤ maxLen ∧ ∃ l, findPath g a target maxLen = a :: l ∧
          List.Chain (edgeRel g) a l ∧ l.length = d ∧
          ∃ hne : l ≠ [], l.getLast hne ∈ target) ∨
        (¬ (d + 1 ≤ maxLen) ∧ findPath g a target maxLen = []))) := by
  have hcor := findPathLoop_correct g a target (N + 1) 0 (initPred g a) (by omega)
    (by simp [ball]) (predOK_init g a)
  rw [(ball_zero_succ g a).1, (ball_zero_succ g a).2] at hcor
  cases hm : findPathLoop g target (N + 1) (g.rows a) (g.rows a) (initPred g a) with
  | none =>
    left
    exact ⟨by simp [findPath, hm], hcor.1 hm⟩
  | some r =>
    obtain ⟨t, pr⟩ := r
    obtain ⟨d, hd1, hdN, htb, htnb, httgt, hdtgt, hpr⟩ := hcor.2 t pr hm
    right
    refine ⟨d, hd1, hdN, hdtgt, ⟨t, Finset.mem_inter.mpr ⟨htb, httgt⟩⟩, ?_⟩
    obtain ⟨hne2, hch2, hlen2, hlast2⟩ :=
      walkBack_spec g a pr d hpr N d hd1 (le_refl d) hdN t htb htnb
    have hfp : findPath g a target maxLen =
        if (a :: walkBack pr a N t).length ≤ maxLen then a :: walkBack pr a N t else [] := by
      simp [findPath, hm]
    have hplen : (a :: walkBack pr a N t).length = d + 1 := by
      simp [hlen2]
    by_cases hbound : d + 1 ≤ maxLen
    · left
      refine ⟨hbound, walkBack pr a N t, ?_, hch2, hlen2, hne2, by rw [hlast2]; exact httgt⟩
      rw [hfp, hplen, if_pos hbound]
    · right
      refine ⟨hbound, ?_⟩
      rw [hfp, hplen, if_neg hbound]

/-- C2: whenever `findPath` returns a nonempty path, every consecutive pair
of its vertices is an edge, it starts at `from`, ends at a member of
`target`, its vertex count is at most `maxLen`, and no valid path with fewer
vertices (within `maxLen`) exists — the returned length is minimal. -/
theorem c2_findPath_valid_minimal (g : BVGraph N) (a : Fin N) (target : Finset (Fin N))
    (maxLen : Nat) (hne : findPath g a target maxLen ≠ []) :
    List.Chain' (edgeRel g) (findPath g a target maxLen) ∧
    (findPath g a target maxLen).head? = some a ∧
    (findPath g a target maxLen).getLast hne ∈ target ∧
    (findPath g a target maxLen).length ≤ maxLen ∧
    (∀ l, ∀ h2 : l ≠ [], List.Chain (edgeRel g) a l → l.getLast h2 ∈ target →
      l.length + 1 ≤ maxLen → (findPath g a target maxLen).length ≤ l.length + 1) := by
  rcases findPath_spec g a target maxLen with ⟨hemp, _⟩ | ⟨d, hd1, hdN, hdtgt, hdhit, hcase⟩
  · exact absurd hemp hne
  · rcases hcase with ⟨hbound, l, hfp, hch, hlen2, hne2, hlast⟩ | ⟨_, hemp⟩
    · refine ⟨?_, ?_, ?_, ?_, ?_⟩
      · rw [hfp]
        exact hch
      · rw [hfp]
        rfl
      · have h1 : (findPath g a target maxLen).getLast? =
            some ((findPath g a target maxLen).getLast hne) :=
          List.getLast?_eq_getLast _ hne
        have h2 : (findPath g a target maxLen).getLast? = some (l.getLast hne2) := by
          rw [hfp, List.getLast?_eq_getLast (a :: l) (List.cons_ne_nil a l),
            List.getLast_cons hne2]
        rw [h1] at h2
        rw [Option.some.inj h2]
        exact hlast
      · rw [hfp]
        simp only [List.length_cons, hlen2]
        omega
      · intro l2 h2 hch2 hlast2 _
        have hw : l2.getLast h2 ∈ ball g a l2.length :=
          (mem_ball_iff_chain g a l2.length _).mpr ⟨l2, h2, hch2, le_refl _, rfl⟩
        rw [hfp]
        simp only [List.length_cons, hlen2]
        by_contra hlt
        push_neg at hlt
        have hle : l2.length ≤ d - 1 := by omega
        have hwmem : l2.getLast h2 ∈ ball g a (d - 1) ∩ target :=
          Finset.mem_inter.mpr ⟨ball_mono g a hle hw, hlast2⟩
        rw [hdtgt] at hwmem
        exact absurd hwmem (Finset.not_mem_empty _)
    · exact absurd hemp hne

/-- C2 witness: `findPath` on the spec's Scenario A graph returns a nonempty
path, and the validity and minimality facts hold for it. -/
theorem c2_witness :
    findPath gScenario 1 tScenario 5 ≠ [] ∧
      List.Chain' (edgeRel gScenario) (findPath gScenario 1 tScenario 5) ∧
      (findPath gScenario 1 tScenario 5).head? = some 1 ∧
      (findPath gScenario 1 tScenario 5).length ≤ 5 ∧
      (∀ l, ∀ h2 : l ≠ [], List.Chain (edgeRel gScenario) 1 l →
        l.getLast h2 ∈ tScenario → l.length + 1 ≤ 5 →
        (findPath gScenario 1 tScenario 5).length ≤ l.length + 1) := by
  have h : findPath gScenario 1 tScenario 5 ≠ [] := by decide
  have hc := c2_findPath_valid_minimal gScenario 1 tScenario 5 h
  exact ⟨h, hc.1, hc.2.1, hc.2.2.2.1, hc.2.2.2.2⟩

/-- C3: `findPath` returns `0` (no path written, modelled by the empty list)
when no one-or-more-edge path exists, or when every valid path has more than
`maxLen` vertices; in particular on the capacity-8 graph with edges `1→2`,
`2→4`, `2→0`, `findPath(1, {0,7}, buf, 2)` returns `0` because the shortest
path has 3 vertices. -/
theorem c3_findPath_returns_zero (g : BVGraph N) (a : Fin N) (target : Finset (Fin N))
    (maxLen : Nat) :
    (¬ HasPath g a target → findPath g a target maxLen = []) ∧
    ((∀ l, ∀ h : l ≠ [], List.Chain (edgeRel g) a l → l.getLast h ∈ target →
        maxLen < l.length + 1) → findPath g a target maxLen = []) ∧
    findPath gScenario 1 tScenario 2 = [] := by
  refine ⟨?_, ?_, by decide⟩
  · intro hnp
    rcases findPath_spec g a target maxLen with ⟨hemp, _⟩ | ⟨d, _, _, _, hdhit, _⟩
    · exact hemp
    · exfalso
      apply hnp
      rw [hasPath_iff_ballN]
      obtain ⟨t, ht⟩ := hdhit
      obtain ⟨h1, h2⟩ := Finset.mem_inter.mp ht
      exact ⟨t, Finset.mem_inter.mpr ⟨ball_subset_ballN g a d h1, h2⟩⟩
  · intro hshort
    rcases findPath_spec g a target maxLen with ⟨hemp, _⟩ | ⟨d, _, _, _, _, hcase⟩
    · exact hemp
    · rcases hcase with ⟨hbound, l, _, hch, hlen2, hne2, hlast⟩ | ⟨_, hemp⟩
      · have hcontra := hshort l hne2 hch hlast
        omega
      · exact hemp

/-- C3 witness: the Scenario B fact extracted through the theorem. -/
theorem c3_witness : findPath gScenario 1 tScenario 2 = [] :=
  (c3_findPath_returns_zero (BVGraph.clear 8) 0 ∅ 0).2.2

lemma layer_hit_unique (g : BVGraph N) (a : Fin N) (target : Finset (Fin N)) {d1 d2 : Nat}
    (h11 : ball g a (d1 - 1) ∩ target = ∅) (h12 : (ball g a d1 ∩ target).Nonempty)
    (h21 : ball g a (d2 - 1) ∩ target = ∅) (h22 : (ball g a d2 ∩ target).Nonempty) :
    d1 = d2 := by
  by_contra hd
  rcases Nat.lt_or_ge d1 d2 with h | h
  · obtain ⟨v, hv⟩ := h12
    obtain ⟨hv1, hv2⟩ := Finset.mem_inter.mp hv
    have hm : v ∈ ball g a (d2 - 1) ∩ target :=
      Finset.mem_inter.mpr ⟨ball_mono g a (by omega) hv1, hv2⟩
    rw [h21] at hm
    exact absurd hm (Finset.not_mem_empty v)
  · rcases Nat.lt_or_ge d2 d1 with h2 | h2
    · obtain ⟨v, hv⟩ := h22
      obtain ⟨hv1, hv2⟩ := Finset.mem_inter.mp hv
      have hm : v ∈ ball g a (d1 - 1) ∩ target :=
        Finset.mem_inter.mpr ⟨ball_mono g a (by omega) hv1, hv2⟩
      rw [h11] at hm
      exact absurd hm (Finset.not_mem_empty v)
    · omega

/-- C10 counterexample: the claim bounds the successful `findPath` length by
`len < N`, but on the capacity-3 chain `0→1→2` with `target = {2}` the
shortest path has exactly `3 = N` vertices, so `isReachable` is true while no
`len` with `1 ≤ len < 3` makes `findPath` return `len`. -/
theorem c10_counterexample :
    isReachable gChain3 0 {2} = true ∧
      (∀ len, len < 3 → ¬ (1 ≤ len ∧ (findPath gChain3 0 {2} len).length = len ∧
        ∃ h : findPath gChain3 0 {2} len ≠ [],
          (findPath gChain3 0 {2} len).getLast h ∈ ({2} : Finset (Fin 3)))) := by
  exact ⟨by decide, by decide⟩

/-- C10 (amended): whenever `isReachable` is true there is a length `len`
with `1 ≤ len ≤ N + 1` such that `findPath` with `maxLen = len` returns
exactly `len` and the path's last vertex is in `target` (the bound `len < N`
of the claim is enlarged to `len ≤ N + 1`, forced by shortest paths that use
every vertex, possibly revisiting the source); whenever `isReachable` is
false, `findPath` returns `0` for every `maxLen`. -/
theorem c10_amended_consistency (g : BVGraph N) (a : Fin N) (target : Finset (Fin N)) :
    (isReachable g a target = true → ∃ len, 1 ≤ len ∧ len ≤ N + 1 ∧
      (findPath g a target len).length = len ∧
      ∃ h : findPath g a target len ≠ [], (findPath g a target len).getLast h ∈ target) ∧
    (isReachable g a target = false → ∀ maxLen, findPath g a target maxLen = []) := by
  constructor
  · intro hr
    have hball : (ball g a N ∩ target).Nonempty := by
      rw [← hasPath_iff_ballN]
      exact (isReachable_iff g a target).mp hr
    rcases findPath_spec g a target (N + 1) with ⟨_, hempN⟩ | ⟨d, hd1, hdN, hdtgt, hdhit, _⟩
    · rw [hempN] at hball
      exact absurd hball (by simp)
    · rcases findPath_spec g a target (d + 1) with ⟨_, hempN⟩ | hspec2
      · rw [hempN] at hball
        exact absurd hball (by simp)
      · obtain ⟨d2, hd21, hd2N, hd2tgt, hd2hit, hcase2⟩ := hspec2
        have hdd : d2 = d := layer_hit_unique g a target hd2tgt hd2hit hdtgt hdhit
        subst hdd
        rcases hcase2 with ⟨_, l, hfp, _, hlen2, hne2, hlast⟩ | ⟨hb, _⟩
        · refine ⟨d2 + 1, by omega, by omega, ?_, ?_, ?_⟩
          · rw [hfp]
            simp [hlen2]
          · rw [hfp]
            simp
          · have h1 : (findPath g a target (d2 + 1)).getLast? = some (l.getLast hne2) := by
              rw [hfp, List.getLast?_eq_getLast (a :: l) (List.cons_ne_nil a l),
                List.getLast_cons hne2]
            have hnefp : findPath g a target (d2 + 1) ≠ [] := by
              rw [hfp]
              simp
            rw [List.getLast?_eq_getLast _ hnefp] at h1
            rw [Option.some.inj h1]
            exact hlast
        · omega
  · intro hr maxLen
    rcases findPath_spec g a target maxLen with ⟨hemp, _⟩ | ⟨d, _, _, _, hdhit, _⟩
    · exact hemp
    · exfalso
      have hp : HasPath g a target := by
        rw [hasPath_iff_ballN]
        obtain ⟨t, ht⟩ := hdhit
        obtain ⟨h1, h2⟩ := Finset.mem_inter.mp ht
        exact ⟨t, Finset.mem_inter.mpr ⟨ball_subset_ballN g a d h1, h2⟩⟩
      have := (isReachable_iff g a target).mpr hp
      rw [hr] at this
      exact Bool.false_ne_true this

/-- C10 witness: the amended consistency facts evaluated on the capacity-3
chain, where the existing length is `3 = N` (within the amended bound
`N + 1`). -/
theorem c10_witness :
    isReachable gChain3 0 {2} = true ∧
      (∃ len, 1 ≤ len ∧ len ≤ 3 + 1 ∧ (findPath gChain3 0 {2} len).length = len ∧
        ∃ h : findPath gChain3 0 {2} len ≠ [],
          (findPath gChain3 0 {2} len).getLast h ∈ ({2} : Finset (Fin 3))) :=
  ⟨by decide, (c10_amended_consistency gChain3 0 {2}).1 (by decide)⟩

end BVG
